import Mathlib

/-!
Verification of the locally authored post-processing logic of the
typo-detector notebook (`245-typo-detector.ipynb`): the token-to-word
mapper `token_to_words`, the typo-index extractor `get_typo_indexes`,
the sentence splitter `sentence_split`, and the annotator `show_typos`.

Strings are modelled as `List Char`.  The Python dictionary built by
`token_to_words` is modelled as an association list in insertion order,
looked up with last-write-wins semantics (matching Python assignment
overwriting).  Classifier scores are modelled as pairs of rationals;
only `argmax` over the two classes is ever consulted.  Fallible
operations (list indexing, dictionary lookup on a missing key) return
`Option`, `none` standing for the Python exception.
-/

set_option autoImplicit false

namespace TypoDetector

/-- The sub-word continuation marker `##` used by the tokenizer. -/
def contMark : List Char := ['#', '#']

/-- `isPre p l` tests whether `p` is a literal prefix of `l`
(Python `str.startswith`). -/
def isPre : List Char → List Char → Bool
  | [], _ => true
  | _ :: _, [] => false
  | p :: ps, c :: cs => p == c && isPre ps cs

/-- `occursIn pat l` tests whether `pat` occurs as a contiguous substring
of `l` at some position (the empty pattern occurs in every list). -/
def occursIn (pat : List Char) : List Char → Bool
  | [] => pat.isEmpty
  | c :: rest => isPre pat (c :: rest) || occursIn pat rest

/-- Loop body of `token_to_words`: scan the tokens with the running
`word_count` (starting from `-1`), recording each token together with the
word index assigned at its scan step, in insertion order.
Mirrors:
`for token in tokens: if token.startswith('##'): map[token] = wc; continue;
 wc += 1; map[token] = wc`. -/
def token_to_words_aux (wc : Int) : List (List Char) → List (List Char × Int)
  | [] => []
  | t :: ts =>
    if isPre contMark t then
      (t, wc) :: token_to_words_aux wc ts
    else
      (t, wc + 1) :: token_to_words_aux (wc + 1) ts

/-- `token_to_words` from the notebook: builds the token-to-word-index
dictionary, `word_count` initialized to `-1`. -/
def token_to_words (tokens : List (List Char)) : List (List Char × Int) :=
  token_to_words_aux (-1) tokens

/-- Python dictionary lookup over the insertion-ordered association list:
the LAST assignment to a key wins (later `dict[k] = v` overwrites earlier
ones).  `none` models a `KeyError`. -/
def dictLookup : List (List Char × Int) → List Char → Option Int
  | [], _ => none
  | (k, v) :: rest, key =>
    match dictLookup rest key with
    | some v' => some v'
    | none => if k == key then some v else none

/-- `np.argmax` over the two class scores `(correct, typo)`: index of the
maximum, ties resolved to the first (lowest) index. -/
def argmax2 (s : ℚ × ℚ) : Nat :=
  if s.1 < s.2 then 1 else 0

/-- `if w not in wrong_words: wrong_words.append(w)` of the extractor. -/
def insertIfNew (acc : List Int) (w : Int) : List Int :=
  if w ∈ acc then acc else acc ++ [w]

/-- The expression `map_to_words[tokens[c]]` of the extractor loop:
`none` models an `IndexError` on `tokens[c]` or a `KeyError` on the map
lookup. -/
def wordAtPosition (m : List (List Char × Int)) (tokens : List (List Char))
    (c : Nat) : Option Int :=
  match tokens[c]? with
  | none => none
  | some tok => dictLookup m tok

/-- Loop of `get_typo_indexes`: walk the (sentinel-stripped) score rows
with the position counter `c`, and for each row with `argmax == 1` append the
word index of `tokens[c]` if not already present. -/
def get_typo_indexes_aux (m : List (List Char × Int)) (tokens : List (List Char)) :
    List (ℚ × ℚ) → Nat → List Int → Option (List Int)
  | [], _, acc => some acc
  | s :: rest, c, acc =>
    if argmax2 s = 1 then
      match wordAtPosition m tokens c with
      | none => none
      | some w => get_typo_indexes_aux m tokens rest (c + 1) (insertIfNew acc w)
    else
      get_typo_indexes_aux m tokens rest (c + 1) acc

/-- `result[0][1:-1]`: drop the two sentinel rows (sequence start / end). -/
def stripSentinels (l : List (ℚ × ℚ)) : List (ℚ × ℚ) :=
  (l.drop 1).dropLast

/-- `get_typo_indexes` from the notebook, with `result0` standing for
`result[0]` (the per-position score rows including the two sentinels). -/
def get_typo_indexes (result0 : List (ℚ × ℚ)) (m : List (List Char × Int))
    (tokens : List (List Char)) : Option (List Int) :=
  get_typo_indexes_aux m tokens (stripSentinels result0) 0 []

/-- The raw flagged word-index sequence in position order, duplicates kept:
same walk as `get_typo_indexes` but without the membership filter. -/
def rawTypoIndexes_aux (m : List (List Char × Int)) (tokens : List (List Char)) :
    List (ℚ × ℚ) → Nat → Option (List Int)
  | [], _ => some []
  | s :: rest, c =>
    if argmax2 s = 1 then
      match wordAtPosition m tokens c with
      | none => none
      | some w => (rawTypoIndexes_aux m tokens rest (c + 1)).map (fun l => w :: l)
    else
      rawTypoIndexes_aux m tokens rest (c + 1)

/-- Sentinel-stripped raw flagged word-index sequence. -/
def rawTypoIndexes (result0 : List (ℚ × ℚ)) (m : List (List Char × Int))
    (tokens : List (List Char)) : Option (List Int) :=
  rawTypoIndexes_aux m tokens (stripSentinels result0) 0

/-- Keep the first occurrence of each value, in first-seen order. -/
def firstDedup (l : List Int) : List Int :=
  l.foldl insertIfNew []

/-- The delimiter class of `re.split("([',. ])", sentence)`:
apostrophe, comma, period, space. -/
def isDelim (c : Char) : Bool :=
  c == Char.ofNat 39 || c == ',' || c == '.' || c == ' '

/-- `re.split` with a capturing single-character class: alternating
(possibly empty) non-delimiter chunks and single-delimiter elements. -/
def splitCapture : List Char → List (List Char)
  | [] => [[]]
  | c :: rest =>
    if isDelim c then
      [] :: [c] :: splitCapture rest
    else
      match splitCapture rest with
      | [] => [[c]]
      | w :: ws => (c :: w) :: ws

/-- `sentence_split` from the notebook: split with capture, then drop
elements equal to `" "` or `""`. -/
def sentence_split (s : List Char) : List (List Char) :=
  (splitCapture s).filter (fun x => !(x == [' ']) && !(x == []))

/-- Python list indexing `l[i]` with an `int` index: negative indexes
count from the end; out-of-range is an `IndexError` (`none`). -/
def pyIndex {α : Type} (l : List α) (i : Int) : Option α :=
  if 0 ≤ i then l[i.toNat]?
  else if 0 ≤ i + l.length then l[(i + l.length).toNat]?
  else none

/-- `[sentence_words[i] for i in typo_indexes]`: the first failing index
raises (`none`). -/
def mapIndex (ws : List (List Char)) : List Int → Option (List (List Char))
  | [] => some []
  | i :: rest =>
    match pyIndex ws i, mapIndex ws rest with
    | some w, some ts => some (w :: ts)
    | _, _ => none

/-- `str.replace(pat, rep)`: replace every non-overlapping occurrence of
`pat`, scanning left to right; an empty `pat` inserts `rep` between every
character and at both ends (Python semantics). -/
def replaceAll (pat rep : List Char) : List Char → List Char
  | [] => if pat.isEmpty then rep else []
  | c :: rest =>
    if isPre pat (c :: rest) && !pat.isEmpty then
      rep ++ replaceAll pat rep (rest.drop (pat.length - 1))
    else if pat.isEmpty then
      rep ++ c :: replaceAll pat rep rest
    else
      c :: replaceAll pat rep rest
termination_by l => l.length
decreasing_by
  · simp only [List.length_cons, List.length_drop]
    omega
  · simp
  · simp

/-- `f-string <i>{typo}</i>`. -/
def itag (t : List Char) : List Char :=
  ('<' :: 'i' :: '>' :: t) ++ ['<', '/', 'i', '>']

/-- The typo substrings `show_typos` looks up:
`typos = [sentence_words[i] for i in get_typo_indexes(result, map, tokens)]`
with `map = token_to_words(tokens)` and
`sentence_words = sentence_split(sentence)`. -/
def typosOfSentence (sentence : List Char) (tokens : List (List Char))
    (result0 : List (ℚ × ℚ)) : Option (List (List Char)) :=
  match get_typo_indexes result0 (token_to_words tokens) tokens with
  | none => none
  | some idxs => mapIndex (sentence_split sentence) idxs

/-- The replacement loop of `show_typos`:
`for typo in typos: detected = detected.replace(typo, f'<i>{typo}</i>')`. -/
def annotate (sentence : List Char) (typos : List (List Char)) : List Char :=
  typos.foldl (fun detected typo => replaceAll typo (itag typo) detected) sentence

/-- `show_typos` from the notebook (second method), as a function of the
sentence plus the two collaborator outputs (`tokenizer.tokenize` and
`infer`), returning the annotated string (`none` models a raised
`IndexError`/`KeyError` inside the local logic). -/
def show_typos (sentence : List Char) (tokens : List (List Char))
    (result0 : List (ℚ × ℚ)) : Option (List Char) :=
  (typosOfSentence sentence tokens result0).map (annotate sentence)

/-- The word index the scan of `token_to_words` assigns at position `i`:
one less than the number of non-continuation tokens among the first
`i + 1` tokens. -/
def wordIndexAt (tokens : List (List Char)) (i : Nat) : Int :=
  ((tokens.take (i + 1)).countP (fun t => !(isPre contMark t)) : Int) - 1

/-! ## Basic facts about the token-to-word map -/

lemma keys_token_to_words_aux (wc : Int) (ts : List (List Char)) :
    (token_to_words_aux wc ts).map Prod.fst = ts := by
  induction ts generalizing wc with
  | nil => rfl
  | cons t ts ih =>
    simp only [token_to_words_aux]
    by_cases h : isPre contMark t
    · simp [h, ih]
    · simp [h, ih]

lemma dictLookup_eq_none (m : List (List Char × Int)) (key : List Char)
    (h : key ∉ m.map Prod.fst) : dictLookup m key = none := by
  induction m with
  | nil => rfl
  | cons e rest ih =>
    obtain ⟨k, v⟩ := e
    simp only [List.map_cons, List.mem_cons] at h
    push_neg at h
    simp only [dictLookup, ih h.2]
    have : (k == key) = false := by
      simp [h.1.symm]
    simp [this]

/-- With pairwise distinct tokens, the final dictionary value of the token
at position `i` is the running counter value at its scan step:
`wc + #(non-continuation tokens among the first i+1)`. -/
lemma lookup_token_to_words_aux (tokens : List (List Char)) (hd : tokens.Nodup)
    (wc : Int) (i : Nat) (h : i < tokens.length) :
    dictLookup (token_to_words_aux wc tokens) (tokens.get ⟨i, h⟩)
      = some (wc + ((tokens.take (i + 1)).countP (fun t => !(isPre contMark t)) : Int)) := by
  induction tokens generalizing wc i with
  | nil => exact absurd h (by simp)
  | cons t ts ih =>
    rw [List.nodup_cons] at hd
    cases i with
    | zero =>
      have hget : (t :: ts).get ⟨0, h⟩ = t := rfl
      rw [hget]
      have hnone : dictLookup (token_to_words_aux (if isPre contMark t then wc else wc + 1) ts) t = none := by
        apply dictLookup_eq_none
        rw [keys_token_to_words_aux]
        exact hd.1
      simp only [token_to_words_aux]
      by_cases hc : isPre contMark t
      · simp only [if_pos hc, dictLookup]
        rw [if_pos hc] at hnone
        rw [hnone]
        simp [hc, List.countP_cons]
      · simp only [if_neg hc, dictLookup]
        rw [if_neg hc] at hnone
        rw [hnone]
        simp [hc, List.countP_cons]
    | succ i =>
      have hlen : i < ts.length := by
        simpa using h
      have hget : (t :: ts).get ⟨i + 1, h⟩ = ts.get ⟨i, hlen⟩ := rfl
      rw [hget]
      have hcount : ((t :: ts).take (i + 1 + 1)).countP (fun t => !(isPre contMark t))
          = (if isPre contMark t then 0 else 1)
            + (ts.take (i + 1)).countP (fun t => !(isPre contMark t)) := by
        rw [List.take_succ_cons, List.countP_cons]
        by_cases hc : isPre contMark t
        · simp [hc]
        · simp [hc]
          omega
      simp only [token_to_words_aux]
      by_cases hc : isPre contMark t
      · simp only [if_pos hc, dictLookup, ih hd.2 wc i hlen]
        rw [hcount]
        simp [hc]
      · simp only [if_neg hc, dictLookup, ih hd.2 (wc + 1) i hlen]
        rw [hcount]
        simp [hc]
        ring

/-- With pairwise distinct tokens, `token_to_words` assigns the token at
position `i` the word index `wordIndexAt tokens i`. -/
lemma lookup_token_to_words (tokens : List (List Char)) (hd : tokens.Nodup)
    (i : Nat) (h : i < tokens.length) :
    dictLookup (token_to_words tokens) (tokens.get ⟨i, h⟩) = some (wordIndexAt tokens i) := by
  rw [token_to_words, lookup_token_to_words_aux tokens hd (-1) i h, wordIndexAt]
  congr 1


lemma countP_take_succ (p : List Char → Bool) (l : List (List Char)) (k : Nat)
    (hk : k < l.length) :
    (l.take (k + 1)).countP p
      = (l.take k).countP p + (if p (l.get ⟨k, hk⟩) then 1 else 0) := by
  rw [List.take_succ, List.countP_append]
  have : l[k]? = some (l.get ⟨k, hk⟩) := by
    rw [List.getElem?_eq_getElem hk]
    rfl
  rw [this]
  by_cases hp : p l[k] <;> simp [hp, List.countP_cons]

/-- If every token at a position in `(j, i]` is a continuation, the
non-continuation count over the first `i + 1` tokens equals the count
over the first `j + 1` tokens. -/
lemma countP_take_const (l : List (List Char)) (j i : Nat) (hij : j ≤ i) (hi : i < l.length)
    (hcont : ∀ k (hk : k < l.length), j < k → k ≤ i → isPre contMark (l.get ⟨k, hk⟩) = true) :
    (l.take (i + 1)).countP (fun t => !(isPre contMark t))
      = (l.take (j + 1)).countP (fun t => !(isPre contMark t)) := by
  induction i with
  | zero =>
    have : j = 0 := by omega
    subst this
    rfl
  | succ n ih =>
    rcases Nat.eq_or_lt_of_le hij with rfl | hlt
    · rfl
    · have hn : n < l.length := by omega
      rw [countP_take_succ _ _ _ hi]
      have hc := hcont (n + 1) hi (by omega) (le_refl _)
      simp only [hc, Bool.not_true, if_neg (by simp : ¬ (false = true)), Nat.add_zero]
      exact ih (by omega) hn (fun k hk h1 h2 => hcont k hk h1 (by omega))

/-! ## Claims about `token_to_words` -/

/-- C2 counterexample.  The claim says a first token carrying the `##`
continuation marker is mapped to word index `0`; on the single-token
sequence `["##a"]` the code maps it to `-1` (the counter starts at `-1`
and is never advanced), refuting the claim. -/
theorem first_token_continuation_not_zero :
    isPre contMark ['#', '#', 'a'] = true ∧
    dictLookup (token_to_words [['#', '#', 'a']]) ['#', '#', 'a'] = some (-1) ∧
    some (-1 : Int) ≠ some (0 : Int) := by
  decide

/-- C2 (amended).  For every token sequence whose first token carries the
continuation marker `##`, and whose first token does not recur later in
the sequence (so no later dictionary assignment overwrites its entry),
`token_to_words` maps that first token to word index `-1`, with no
special-casing applied. -/
theorem first_token_continuation_maps_to_neg_one (t : List Char) (rest : List (List Char))
    (hc : isPre contMark t = true) (hnr : t ∉ rest) :
    dictLookup (token_to_words (t :: rest)) t = some (-1) := by
  have hnone : dictLookup (token_to_words_aux (-1) rest) t = none := by
    apply dictLookup_eq_none
    rw [keys_token_to_words_aux]
    exact hnr
  rw [token_to_words]
  simp only [token_to_words_aux, if_pos hc, dictLookup, hnone]
  simp

theorem first_token_continuation_maps_to_neg_one_witness :
    dictLookup (token_to_words [['#', '#', 'a'], ['b']]) ['#', '#', 'a'] = some (-1) :=
  first_token_continuation_maps_to_neg_one ['#', '#', 'a'] [['b']]
    (by decide) (by decide)

/-- C3 counterexample.  The claim says that on any sequence with no
continuation tokens the map assigns strictly increasing indexes
`0..k-1` to the `k` tokens in input order; on `["a", "a"]` (no
continuations) the token at position 0 is looked up by value and receives
index `1`, not `0`, because the second scan step overwrote the entry. -/
theorem token_to_words_not_position_increasing :
    (∀ t ∈ ([['a'], ['a']] : List (List Char)), isPre contMark t = false) ∧
    ([['a'], ['a']] : List (List Char)).head? = some ['a'] ∧
    dictLookup (token_to_words [['a'], ['a']]) ['a'] = some 1 ∧
    some (1 : Int) ≠ some (0 : Int) := by
  decide

/-- C3 (amended).  For every token sequence of length `k` with pairwise
distinct tokens and no continuation tokens, `token_to_words` assigns
strictly increasing word indexes `0..k-1` to the `k` tokens in input
order: the token at position `i` is mapped to `i`. -/
theorem token_to_words_increasing_of_nodup (tokens : List (List Char))
    (hd : tokens.Nodup) (hnc : ∀ t ∈ tokens, isPre contMark t = false)
    (i : Nat) (h : i < tokens.length) :
    dictLookup (token_to_words tokens) (tokens.get ⟨i, h⟩) = some (i : Int) := by
  rw [lookup_token_to_words tokens hd i h]
  congr 1
  rw [wordIndexAt]
  have hlen : (tokens.take (i + 1)).countP (fun t => !(isPre contMark t))
      = (tokens.take (i + 1)).length := by
    rw [List.countP_eq_length]
    intro a ha
    simp [hnc a (List.take_subset _ _ ha)]
  rw [hlen, List.length_take]
  have : min (i + 1) tokens.length = i + 1 := by omega
  rw [this]
  push_cast
  ring

theorem token_to_words_increasing_of_nodup_witness :
    dictLookup (token_to_words [['a'], ['b']]) ['b'] = some 1 := by
  have h := token_to_words_increasing_of_nodup [['a'], ['b']]
    (by decide) (by decide) 1 (by decide)
  simpa using h

/-- C4 counterexample.  The claim says every continuation token is mapped
to the same word index as its nearest preceding non-continuation token;
on `["a", "##z", "b", "##z"]` the continuation at position 1 (value
`"##z"`, nearest preceding non-continuation `"a"` at index `0`) is looked
up by value and receives index `1`, because the second `"##z"` overwrote
its entry. -/
theorem continuation_word_index_counterexample :
    ([['a'], ['#', '#', 'z'], ['b'], ['#', '#', 'z']] : List (List Char))[1]? =
        some ['#', '#', 'z'] ∧
    isPre contMark ['#', '#', 'z'] = true ∧
    ([['a'], ['#', '#', 'z'], ['b'], ['#', '#', 'z']] : List (List Char))[0]? = some ['a'] ∧
    isPre contMark ['a'] = false ∧
    dictLookup (token_to_words [['a'], ['#', '#', 'z'], ['b'], ['#', '#', 'z']]) ['a']
        = some 0 ∧
    dictLookup (token_to_words [['a'], ['#', '#', 'z'], ['b'], ['#', '#', 'z']])
        ['#', '#', 'z'] = some 1 ∧
    some (1 : Int) ≠ some (0 : Int) := by
  decide

/-- C4 (amended).  For every token sequence with pairwise distinct
tokens, every continuation token (position `i`, starting with `##`) is
mapped by `token_to_words` to the same word index as its nearest
preceding non-continuation token (position `j`, every position strictly
between being a continuation). -/
theorem continuation_maps_to_preceding_word (tokens : List (List Char))
    (hd : tokens.Nodup) (i j : Nat) (hi : i < tokens.length) (hj : j < i)
    (hci : isPre contMark (tokens.get ⟨i, hi⟩) = true)
    (hcj : isPre contMark (tokens.get ⟨j, by omega⟩) = false)
    (hbetween : ∀ k (hk : k < tokens.length), j < k → k < i →
      isPre contMark (tokens.get ⟨k, hk⟩) = true) :
    dictLookup (token_to_words tokens) (tokens.get ⟨i, hi⟩)
      = dictLookup (token_to_words tokens) (tokens.get ⟨j, by omega⟩) := by
  rw [lookup_token_to_words tokens hd i hi, lookup_token_to_words tokens hd j (by omega)]
  have heq : wordIndexAt tokens i = wordIndexAt tokens j := by
    simp only [wordIndexAt]
    congr 2
    apply countP_take_const tokens j i (by omega) hi
    intro k hk h1 h2
    rcases Nat.eq_or_lt_of_le h2 with rfl | hlt
    · exact hci
    · exact hbetween k hk h1 hlt
  rw [heq]

theorem continuation_maps_to_preceding_word_witness :
    dictLookup (token_to_words [['a'], ['#', '#', 'b']]) ['#', '#', 'b']
      = dictLookup (token_to_words [['a'], ['#', '#', 'b']]) ['a'] := by
  have h := continuation_maps_to_preceding_word [['a'], ['#', '#', 'b']]
    (by decide) 1 0 (by decide) (by decide) (by decide) (by decide)
    (fun k hk h1 h2 => by omega)
  simpa using h

/-! ## Claims about `get_typo_indexes` -/

lemma insertIfNew_nodup (acc : List Int) (w : Int) (h : acc.Nodup) :
    (insertIfNew acc w).Nodup := by
  rw [insertIfNew]
  split
  · exact h
  · next hw =>
    rw [List.nodup_append]
    refine ⟨h, List.nodup_singleton _, ?_⟩
    intro x hx hx1
    simp at hx1
    subst hx1
    exact hw hx

lemma mem_insertIfNew (acc : List Int) (w x : Int) (h : x ∈ insertIfNew acc w) :
    x ∈ acc ∨ x = w := by
  rw [insertIfNew] at h
  split at h
  · exact Or.inl h
  · rcases List.mem_append.1 h with h' | h'
    · exact Or.inl h'
    · simp at h'
      exact Or.inr h'

lemma foldl_insertIfNew_nodup (l : List Int) :
    ∀ acc : List Int, acc.Nodup → (l.foldl insertIfNew acc).Nodup := by
  induction l with
  | nil => intro acc h; exact h
  | cons w rest ih => intro acc h; exact ih _ (insertIfNew_nodup acc w h)

/-- The deduplicating walk of `get_typo_indexes` is the first-seen
deduplication (folded into the accumulator) of the raw flagged
word-index sequence. -/
lemma get_typo_indexes_aux_eq_raw (m : List (List Char × Int)) (toks : List (List Char)) :
    ∀ (rl : List (ℚ × ℚ)) (c : Nat) (acc : List Int),
    get_typo_indexes_aux m toks rl c acc
      = (rawTypoIndexes_aux m toks rl c).map (fun raw => raw.foldl insertIfNew acc) := by
  intro rl
  induction rl with
  | nil => intro c acc; rfl
  | cons s rest ih =>
    intro c acc
    simp only [get_typo_indexes_aux, rawTypoIndexes_aux]
    by_cases h1 : argmax2 s = 1
    · simp only [if_pos h1]
      cases hw : wordAtPosition m toks c with
      | none => rfl
      | some w =>
        simp only [ih]
        cases hraw : rawTypoIndexes_aux m toks rest (c + 1) with
        | none => rfl
        | some raw => simp [hraw]
    · simp only [if_neg h1]
      exact ih (c + 1) acc

/-- C5.  Whenever `get_typo_indexes` returns a list, that list has no
duplicate word indexes, and it equals the first-seen deduplication of the
raw flagged word-index sequence taken in order of discovery. -/
theorem get_typo_indexes_nodup_first_seen (r : List (ℚ × ℚ)) (m : List (List Char × Int))
    (toks : List (List Char)) (out : List Int)
    (h : get_typo_indexes r m toks = some out) :
    out.Nodup ∧ ∃ raw, rawTypoIndexes r m toks = some raw ∧ out = firstDedup raw := by
  rw [get_typo_indexes, get_typo_indexes_aux_eq_raw] at h
  rw [rawTypoIndexes]
  cases hraw : rawTypoIndexes_aux m toks (stripSentinels r) 0 with
  | none => rw [hraw] at h; cases h
  | some raw =>
    rw [hraw] at h
    simp only [Option.map] at h
    injection h with h
    subst h
    exact ⟨foldl_insertIfNew_nodup raw [] List.nodup_nil, raw, rfl, rfl⟩

theorem get_typo_indexes_nodup_first_seen_witness :
    ([0, 1] : List Int).Nodup ∧
    ∃ raw, rawTypoIndexes [(0, 0), (0, 1), (0, 1), (0, 0)]
        (token_to_words [['a'], ['b']]) [['a'], ['b']] = some raw ∧
      ([0, 1] : List Int) = firstDedup raw :=
  get_typo_indexes_nodup_first_seen [(0, 0), (0, 1), (0, 1), (0, 0)]
    (token_to_words [['a'], ['b']]) [['a'], ['b']] [0, 1] (by decide)

/-- C8.  At a position whose two class scores are exactly equal, the
argmax selects the lowest index (label `0`, "correct"), and the extractor
loop passes over that position contributing no word index: the walk on
`(q, q) :: rest` continues on `rest` with an unchanged accumulator. -/
theorem argmax_tie_contributes_nothing (q : ℚ) (m : List (List Char × Int))
    (toks : List (List Char)) (rest : List (ℚ × ℚ)) (c : Nat) (acc : List Int) :
    argmax2 (q, q) = 0 ∧
    get_typo_indexes_aux m toks ((q, q) :: rest) c acc
      = get_typo_indexes_aux m toks rest (c + 1) acc := by
  have h0 : argmax2 (q, q) = 0 := by
    simp [argmax2]
  refine ⟨h0, ?_⟩
  simp [get_typo_indexes_aux, h0]

lemma countP_take_le_succ (p : List Char → Bool) (l : List (List Char)) (c : Nat) :
    (l.take c).countP p ≤ (l.take (c + 1)).countP p := by
  by_cases hc : c < l.length
  · rw [countP_take_succ p l c hc]
    split <;> omega
  · rw [List.take_of_length_le (by omega), List.take_of_length_le (by omega)]

lemma insertIfNew_chain (acc : List Int) (w : Int)
    (hch : acc.Chain' (fun a b => a < b))
    (hbd : ∀ x ∈ acc, x ≤ w) :
    (insertIfNew acc w).Chain' (fun a b => a < b) := by
  rw [insertIfNew]
  split
  · exact hch
  · next hmem =>
    rw [List.chain'_append]
    refine ⟨hch, List.chain'_singleton _, ?_⟩
    intro x hx y hy
    simp at hy
    subst hy
    obtain ⟨hne, hlast⟩ := List.mem_getLast?_eq_getLast hx
    have hxmem : x ∈ acc := hlast ▸ List.getLast_mem hne
    exact lt_of_le_of_ne (hbd x hxmem) (fun h => hmem (h ▸ hxmem))

/-- The flagged word index at position `c` of a collision-free token
sequence is the scan value `wordIndexAt tokens c`. -/
lemma wordAtPosition_eq (tokens : List (List Char)) (hd : tokens.Nodup) (c : Nat)
    (hc : c < tokens.length) :
    wordAtPosition (token_to_words tokens) tokens c = some (wordIndexAt tokens c) := by
  rw [wordAtPosition]
  have hget : tokens[c]? = some (tokens.get ⟨c, hc⟩) := by
    rw [List.getElem?_eq_getElem hc]
    rfl
  rw [hget]
  exact lookup_token_to_words tokens hd c hc

/-- Invariant-carrying walk for C10: if the accumulator is strictly
increasing and bounded by the scan value reachable at position `c`, the
result is strictly increasing. -/
lemma get_typo_indexes_aux_chain (tokens : List (List Char)) (hd : tokens.Nodup) :
    ∀ (rl : List (ℚ × ℚ)) (c : Nat) (acc out : List Int),
    acc.Chain' (fun a b => a < b) →
    (∀ x ∈ acc, x ≤ ((tokens.take c).countP (fun t => !(isPre contMark t)) : Int) - 1) →
    get_typo_indexes_aux (token_to_words tokens) tokens rl c acc = some out →
    out.Chain' (fun a b => a < b) := by
  intro rl
  induction rl with
  | nil =>
    intro c acc out hch hbd h
    simp only [get_typo_indexes_aux] at h
    injection h with h
    exact h ▸ hch
  | cons s rest ih =>
    intro c acc out hch hbd h
    simp only [get_typo_indexes_aux] at h
    by_cases h1 : argmax2 s = 1
    · rw [if_pos h1] at h
      cases hw : wordAtPosition (token_to_words tokens) tokens c with
      | none => rw [hw] at h; cases h
      | some w =>
        rw [hw] at h
        have hc : c < tokens.length := by
          by_contra hlen
          rw [wordAtPosition, List.getElem?_eq_none (by omega)] at hw
          cases hw
        have hw' : w = wordIndexAt tokens c := by
          rw [wordAtPosition_eq tokens hd c hc] at hw
          exact (Option.some.inj hw).symm
        have hwbd : ∀ x ∈ acc, x ≤ w := by
          intro x hx
          have h1x := hbd x hx
          have h2x := countP_take_le_succ (fun t => !(isPre contMark t)) tokens c
          rw [hw', wordIndexAt]
          omega
        apply ih (c + 1) (insertIfNew acc w) out (insertIfNew_chain acc w hch hwbd) _ h
        intro x hx
        rcases mem_insertIfNew acc w x hx with hxa | rfl
        · have h1x := hbd x hxa
          have h2x := countP_take_le_succ (fun t => !(isPre contMark t)) tokens c
          omega
        · rw [hw', wordIndexAt]
    · rw [if_neg h1] at h
      apply ih (c + 1) acc out hch _ h
      intro x hx
      have h1x := hbd x hx
      have h2x := countP_take_le_succ (fun t => !(isPre contMark t)) tokens c
      omega

/-- C10.  For every token sequence with pairwise distinct token strings
(no value-keyed map collisions) and every classification result, any typo
index list returned by `get_typo_indexes` (over the map built by
`token_to_words` from the same tokens) is strictly increasing. -/
theorem typo_index_list_strictly_increasing (tokens : List (List Char))
    (r : List (ℚ × ℚ)) (out : List Int) (hd : tokens.Nodup)
    (h : get_typo_indexes r (token_to_words tokens) tokens = some out) :
    out.Chain' (fun a b => a < b) := by
  rw [get_typo_indexes] at h
  exact get_typo_indexes_aux_chain tokens hd (stripSentinels r) 0 [] out
    List.chain'_nil (by simp) h

theorem typo_index_list_strictly_increasing_witness :
    ([0, 1] : List Int).Chain' (fun a b => a < b) :=
  typo_index_list_strictly_increasing [['a'], ['b']]
    [(0, 0), (0, 1), (0, 1), (0, 0)] [0, 1] (by decide) (by decide)

/-! ## Claims about `sentence_split` -/

/-- `splitCapture` always returns a nonempty list whose head chunk
contains no delimiter characters. -/
lemma splitCapture_head (s : List Char) :
    ∃ w ws, splitCapture s = w :: ws ∧ ∀ c ∈ w, isDelim c = false := by
  induction s with
  | nil => exact ⟨[], [], rfl, by simp⟩
  | cons c rest ih =>
    cases hd : isDelim c
    · obtain ⟨w, ws, hsc, hw⟩ := ih
      refine ⟨c :: w, ws, ?_, ?_⟩
      · simp only [splitCapture, hd, Bool.false_eq_true, if_false, hsc]
      · intro d hd'
        rcases List.mem_cons.1 hd' with rfl | hdw
        · exact hd
        · exact hw d hdw
    · exact ⟨[], [c] :: splitCapture rest, by simp [splitCapture, hd], by simp⟩

/-- Dropping the filtered-out elements (`""` and `" "`) from a group
headed by a chunk `w ≠ " "` loses nothing under concatenation. -/
lemma flatten_filter_cons (w : List Char) (ws : List (List Char)) (hw : w ≠ [' ']) :
    (((w :: ws).filter (fun x => !(x == [' ']) && !(x == []))).flatten : List Char)
      = w ++ ((ws.filter (fun x => !(x == [' ']) && !(x == []))).flatten : List Char) := by
  rw [List.filter_cons]
  by_cases hnil : w = []
  · subst hnil
    simp
  · have : (!(w == [' ']) && !(w == [])) = true := by
      simp [hw, hnil]
    rw [if_pos this, List.flatten_cons]

/-- C6.  The concatenation, in order, of the elements returned by
`sentence_split` reconstructs the original sentence with exactly the
space characters removed: the split-with-capture on apostrophe, comma,
period, and space loses nothing except the filtered-out `" "` and `""`
elements, and the only characters those carry are spaces. -/
theorem sentence_split_round_trip (s : List Char) :
    (sentence_split s).flatten = s.filter (fun c => !(c == ' ')) := by
  induction s with
  | nil => rfl
  | cons c rest ih =>
    rw [sentence_split] at ih ⊢
    by_cases hsp : c = ' '
    · subst hsp
      simp only [splitCapture, isDelim]
      norm_num
      simpa using ih
    · cases hd : isDelim c
      · obtain ⟨w, ws, hsc, hw⟩ := splitCapture_head rest
        simp only [splitCapture, hd, Bool.false_eq_true, if_false, hsc]
        have hwsp : w ≠ [' '] := by
          intro hweq
          have : isDelim ' ' = false := hw ' ' (by rw [hweq]; simp)
          simp [isDelim] at this
        have hcwsp : (c :: w) ≠ [' '] := by
          intro hweq
          injection hweq with h1 _
          exact hsp h1
        rw [flatten_filter_cons (c :: w) ws hcwsp]
        rw [hsc, flatten_filter_cons w ws hwsp] at ih
        rw [List.filter_cons, if_pos (by simp [hsp])]
        rw [List.cons_append, ih]
      · simp only [splitCapture, hd, if_true]
        have h1 : (!(([] : List Char) == [' ']) && !(([] : List Char) == [])) = false := by
          simp
        have h2 : (!(([c] : List Char) == [' ']) && !(([c] : List Char) == [])) = true := by
          simp [hsp]
        rw [List.filter_cons, h1, if_neg (by simp), List.filter_cons, h2, if_pos rfl]
        rw [List.flatten_cons, List.filter_cons, if_pos (by simp [hsp])]
        rw [List.cons_append, ih]
        simp

/-! ## Claims about `show_typos` -/

/-- C7.  If the extractor flags zero typo indexes, the annotated string
produced by `show_typos` is identical to the original input sentence. -/
theorem show_typos_no_typos_identity (s : List Char) (tokens : List (List Char))
    (r : List (ℚ × ℚ))
    (h : get_typo_indexes r (token_to_words tokens) tokens = some []) :
    show_typos s tokens r = some s := by
  rw [show_typos, typosOfSentence, h]
  rfl

theorem show_typos_no_typos_identity_witness :
    show_typos ['a', 'b'] [['a', 'b']] [(0, 0), (1, 0), (0, 0)] = some ['a', 'b'] :=
  show_typos_no_typos_identity ['a', 'b'] [['a', 'b']] [(0, 0), (1, 0), (0, 0)]
    (by decide)

lemma pyIndex_isSome_of_inRange {α : Type} (l : List α) (i : Int)
    (h1 : -(l.length : Int) ≤ i) (h2 : i < (l.length : Int)) :
    (pyIndex l i).isSome = true := by
  rw [pyIndex]
  by_cases h0 : 0 ≤ i
  · rw [if_pos h0]
    have hlt : i.toNat < l.length := by omega
    simp [List.getElem?_eq_getElem hlt]
  · rw [if_neg h0, if_pos (by omega)]
    have hlt : (i + l.length).toNat < l.length := by omega
    simp [List.getElem?_eq_getElem hlt]

lemma pyIndex_eq_none_of_outRange {α : Type} (l : List α) (i : Int)
    (h : i < -(l.length : Int) ∨ (l.length : Int) ≤ i) :
    pyIndex l i = none := by
  rw [pyIndex]
  rcases h with h | h
  · rw [if_neg (by omega), if_neg (by omega)]
  · rw [if_pos (by omega)]
    exact List.getElem?_eq_none (by omega)

lemma pyIndex_neg_one {α : Type} (l : List α) : pyIndex l (-1) = l.getLast? := by
  rw [pyIndex]
  cases l with
  | nil => rfl
  | cons a rest =>
    rw [if_neg (by omega), if_pos (by simp only [List.length_cons]; omega)]
    rw [List.getLast?_eq_getElem?]
    congr 1
    simp only [List.length_cons]
    omega

lemma mapIndex_isSome (ws : List (List Char)) (idxs : List Int)
    (h : ∀ i ∈ idxs, (pyIndex ws i).isSome = true) :
    (mapIndex ws idxs).isSome = true := by
  induction idxs with
  | nil => rfl
  | cons i rest ih =>
    have hi := h i (by simp)
    rw [mapIndex]
    cases hpi : pyIndex ws i with
    | none => rw [hpi] at hi; cases hi
    | some w =>
      have hrest := ih (fun j hj => h j (by simp [hj]))
      cases hmi : mapIndex ws rest with
      | none => rw [hmi] at hrest; cases hrest
      | some ts => rfl

lemma mapIndex_eq_none (ws : List (List Char)) (idxs : List Int)
    (h : ∃ i ∈ idxs, pyIndex ws i = none) :
    mapIndex ws idxs = none := by
  induction idxs with
  | nil => obtain ⟨i, hi, _⟩ := h; cases hi
  | cons i rest ih =>
    obtain ⟨j, hj, hnone⟩ := h
    rw [mapIndex]
    rcases List.mem_cons.1 hj with rfl | hjr
    · rw [hnone]
    · rw [ih ⟨j, hjr, hnone⟩]
      cases pyIndex ws i <;> rfl

/-- C9.  The lookup `sentence_words[i]` in `show_typos` is unguarded
Python indexing: whenever every extracted typo index lies in
`[-len(sentence_words), len(sentence_words))` the lookups all succeed and
`show_typos` produces a result; whenever some extracted index falls
outside that range `show_typos` raises an index error (modelled `none`);
and an index of `-1` silently selects the last element of the word list
rather than failing. -/
theorem typo_lookup_unguarded (s : List Char) (tokens : List (List Char))
    (r : List (ℚ × ℚ)) (idxs : List Int)
    (h : get_typo_indexes r (token_to_words tokens) tokens = some idxs) :
    ((∀ i ∈ idxs, -((sentence_split s).length : Int) ≤ i ∧
        i < ((sentence_split s).length : Int)) →
      (show_typos s tokens r).isSome = true)
    ∧ ((∃ i ∈ idxs, i < -((sentence_split s).length : Int) ∨
        ((sentence_split s).length : Int) ≤ i) →
      show_typos s tokens r = none)
    ∧ pyIndex (sentence_split s) (-1) = (sentence_split s).getLast? := by
  have hts : typosOfSentence s tokens r = mapIndex (sentence_split s) idxs := by
    rw [typosOfSentence, h]
  refine ⟨?_, ?_, pyIndex_neg_one _⟩
  · intro hall
    rw [show_typos, hts]
    have hsome := mapIndex_isSome (sentence_split s) idxs
      (fun i hi => pyIndex_isSome_of_inRange _ i (hall i hi).1 (hall i hi).2)
    cases hmi : mapIndex (sentence_split s) idxs with
    | none => rw [hmi] at hsome; cases hsome
    | some ts => rfl
  · intro hex
    obtain ⟨i, hi, hout⟩ := hex
    rw [show_typos, hts,
      mapIndex_eq_none _ _ ⟨i, hi, pyIndex_eq_none_of_outRange _ i hout⟩]
    rfl

theorem typo_lookup_unguarded_witness :
    ((∀ i ∈ ([-1] : List Int),
        -((sentence_split ['a', 'b', ' ', 'c', 'd']).length : Int) ≤ i ∧
        i < ((sentence_split ['a', 'b', ' ', 'c', 'd']).length : Int)) →
      (show_typos ['a', 'b', ' ', 'c', 'd'] [['#', '#', 'a']]
        [(0, 0), (0, 1), (0, 0)]).isSome = true)
    ∧ ((∃ i ∈ ([-1] : List Int),
        i < -((sentence_split ['a', 'b', ' ', 'c', 'd']).length : Int) ∨
        ((sentence_split ['a', 'b', ' ', 'c', 'd']).length : Int) ≤ i) →
      show_typos ['a', 'b', ' ', 'c', 'd'] [['#', '#', 'a']]
        [(0, 0), (0, 1), (0, 0)] = none)
    ∧ pyIndex (sentence_split ['a', 'b', ' ', 'c', 'd']) (-1)
        = (sentence_split ['a', 'b', ' ', 'c', 'd']).getLast? :=
  typo_lookup_unguarded ['a', 'b', ' ', 'c', 'd'] [['#', '#', 'a']]
    [(0, 0), (0, 1), (0, 0)] [-1] (by decide)

/-! ## Claims about the replacement loop of `show_typos` -/

lemma isPre_iff_take (p l : List Char) : isPre p l = true ↔ l.take p.length = p := by
  induction p generalizing l with
  | nil => simp [isPre]
  | cons a ps ih =>
    cases l with
    | nil => simp [isPre]
    | cons c cs =>
      simp only [isPre, List.length_cons, List.take_succ_cons, Bool.and_eq_true,
        beq_iff_eq, List.cons.injEq, ih cs]
      constructor
      · rintro ⟨rfl, h⟩
        exact ⟨rfl, h⟩
      · rintro ⟨rfl, h⟩
        exact ⟨rfl, h⟩

lemma isPre_append_self (p x : List Char) : isPre p (p ++ x) = true := by
  rw [isPre_iff_take, List.take_left]

lemma take_dropLast_eq (p b : List Char) (j : Nat) (hj : j ≤ p.length - 1) :
    p.dropLast.take j = (p ++ b).take j := by
  rw [List.dropLast_eq_take, List.take_take, List.take_append_eq_append_take]
  have h1 : min j (p.length - 1) = j := by omega
  have h2 : j - p.length = 0 := by omega
  rw [h1, h2, List.take_zero, List.append_nil]

/-- `str.replace` leaves a string with no occurrence of the (nonempty)
pattern unchanged. -/
lemma replaceAll_no_occur (pat rep : List Char) (hne : pat ≠ []) :
    ∀ s, occursIn pat s = false → replaceAll pat rep s = s := by
  have hemp : pat.isEmpty = false := by
    simp [List.isEmpty_iff, hne]
  intro s
  induction s with
  | nil =>
    intro _
    rw [replaceAll, hemp]
    simp
  | cons c rest ih =>
    intro h
    simp only [occursIn, Bool.or_eq_false_iff] at h
    rw [replaceAll, h.1, hemp]
    simp only [Bool.false_and, Bool.not_false, Bool.false_eq_true, if_false]
    rw [ih h.2]

/-- `str.replace` on a string whose first occurrence of the (nonempty)
pattern sits immediately after the prefix `a` replaces that occurrence
and continues after it: the scan cannot match inside `a` nor across the
boundary, because no occurrence fits inside `a ++ pat.dropLast`. -/
lemma replaceAll_first_occur (pat rep b : List Char) (hne : pat ≠ []) :
    ∀ a, occursIn pat (a ++ pat.dropLast) = false →
    replaceAll pat rep (a ++ (pat ++ b)) = a ++ (rep ++ replaceAll pat rep b) := by
  have hemp : pat.isEmpty = false := by
    simp [List.isEmpty_iff, hne]
  intro a
  induction a with
  | nil =>
    intro _
    simp only [List.nil_append]
    cases hp : pat with
    | nil => exact absurd hp hne
    | cons p ps =>
      rw [List.cons_append, replaceAll]
      have hpre : isPre (p :: ps) (p :: (ps ++ b)) = true := by
        have hps := isPre_append_self (p :: ps) b
        rwa [List.cons_append] at hps
      have hcond : (isPre (p :: ps) (p :: (ps ++ b)) && !(p :: ps).isEmpty) = true := by
        rw [hpre]
        simp
      rw [if_pos hcond]
      congr 1
      have hdrop : (ps ++ b).drop ((p :: ps).length - 1) = b := by
        simp only [List.length_cons, Nat.add_sub_cancel]
        exact List.drop_left ps b
      rw [hdrop]
  | cons c a' ih =>
    intro h
    rw [List.cons_append] at h
    simp only [occursIn, Bool.or_eq_false_iff] at h
    obtain ⟨k, hk⟩ : ∃ k, pat.length = k + 1 := by
      cases pat with
      | nil => exact absurd rfl hne
      | cons p ps => exact ⟨ps.length, rfl⟩
    have hpre_false : isPre pat (c :: (a' ++ (pat ++ b))) = false := by
      by_contra hb
      rw [Bool.not_eq_false, isPre_iff_take] at hb
      have heq : (c :: (a' ++ pat.dropLast)).take pat.length
          = (c :: (a' ++ (pat ++ b))).take pat.length := by
        rw [hk, List.take_succ_cons, List.take_succ_cons,
          List.take_append_eq_append_take, List.take_append_eq_append_take,
          take_dropLast_eq pat b (k - a'.length) (by omega)]
      have := (isPre_iff_take pat (c :: (a' ++ pat.dropLast))).2 (heq.trans hb)
      rw [h.1] at this
      cases this
    rw [List.cons_append, replaceAll, hpre_false]
    simp only [Bool.false_and, Bool.false_eq_true, if_false, hemp]
    rw [ih h.2]
    rfl

/-- C1.  When a flagged typo substring `t` occurs literally more than
once in the input sentence (here: exactly twice, the sentence decomposing
as `a ++ t ++ b ++ t ++ c` with no further or overlapping occurrence of
`t`), and the extractor produces the single typo string `t`, the
annotated output of `show_typos` wraps EVERY literal occurrence of `t` in
the `<i>`/`</i>` markers, not only the flagged one. -/
theorem show_typos_wraps_every_occurrence (a b c t : List Char)
    (tokens : List (List Char)) (r : List (ℚ × ℚ))
    (hne : t ≠ [])
    (h1 : occursIn t (a ++ t.dropLast) = false)
    (h2 : occursIn t (b ++ t.dropLast) = false)
    (h3 : occursIn t c = false)
    (hty : typosOfSentence (a ++ (t ++ (b ++ (t ++ c)))) tokens r = some [t]) :
    show_typos (a ++ (t ++ (b ++ (t ++ c)))) tokens r
      = some (a ++ (itag t ++ (b ++ (itag t ++ c)))) := by
  rw [show_typos, hty]
  simp only [Option.map]
  congr 1
  rw [annotate, List.foldl_cons, List.foldl_nil]
  rw [replaceAll_first_occur t (itag t) (b ++ (t ++ c)) hne a h1]
  rw [replaceAll_first_occur t (itag t) c hne b h2]
  rw [replaceAll_no_occur t (itag t) hne c h3]

theorem show_typos_wraps_every_occurrence_witness :
    show_typos ([] ++ (['a', 'b'] ++ ([' ', 'x', ' '] ++ (['a', 'b'] ++ []))))
      [['a', 'b'], ['x'], ['a', 'b']] [(0, 0), (0, 1), (0, 0), (0, 0), (0, 0)]
      = some ([] ++ (itag ['a', 'b'] ++ ([' ', 'x', ' '] ++ (itag ['a', 'b'] ++ [])))) :=
  show_typos_wraps_every_occurrence [] [' ', 'x', ' '] [] ['a', 'b']
    [['a', 'b'], ['x'], ['a', 'b']] [(0, 0), (0, 1), (0, 0), (0, 0), (0, 0)]
    (by decide) (by decide) (by decide) (by decide) (by decide)

end TypoDetector
